import Mathlib

/-!
Verification of the resilient translation orchestration engine of the
`trnsl` repository, as a shallow embedding in Lean 4.

Text is modelled as `List Char` (JavaScript strings; `.length` is the
character count — all characters appearing in this code base are in the
Basic Multilingual Plane, where UTF-16 code units coincide with
characters).  Model identifiers are Lean `String`s.  Network calls are
modelled by oracles passed in explicitly; mutable variables become
explicitly threaded state.
-/

namespace Trnsl

/-- The sentence terminator characters of the regexes
`/(?<=[.!?！？。])/g` and `/[.!?！？。]+/g`. -/
def isTerm (c : Char) : Bool :=
  c = '.' || c = '!' || c = '?' || c = '！' || c = '？' || c = '。'

/-- JavaScript whitespace as removed by `String.prototype.trim`
(the characters of this class that can occur in practice here). -/
def isWs (c : Char) : Bool :=
  c = ' ' || c = '\t' || c = '\n' || c = '\r' || c = '\x0b' || c = '\x0c' || c = ' '

/-- Models `String.prototype.trim`: drop whitespace from both ends. -/
def trimChars (l : List Char) : List Char :=
  ((l.dropWhile isWs).reverse.dropWhile isWs).reverse

/-- JavaScript `hay.includes(needle)` on character lists. -/
def containsSub (hay needle : List Char) : Bool :=
  if needle.isPrefixOf hay then true
  else
    match hay with
    | [] => false
    | _ :: t => containsSub t needle

/-- Models `hay.toLowerCase().includes(sub)` for a `String`-level receiver. -/
def lowerContains (hay sub : String) : Bool :=
  containsSub (hay.toList.map Char.toLower) sub.toList

/-- Models `content.split(/(?<=[.!?！？。])/g)`: split *after* each sentence
terminator, keeping the terminator with its preceding sentence.  A
zero-width match at the very end of the string produces no trailing
empty field (per the ECMAScript `split` algorithm), and splitting the
empty string yields `[""]`. -/
def splitAfterTerm : List Char → List (List Char)
  | [] => [[]]
  | c :: rest =>
    if isTerm c then
      if rest.isEmpty then [[c]] else [c] :: splitAfterTerm rest
    else
      match splitAfterTerm rest with
      | [] => [[c]]
      | s :: ss => (c :: s) :: ss

/-- Models `content.split(/[.!?！？。]+/g)`: split on maximal runs of sentence
terminators, *dropping* the terminators (the inline chunker of
`ai_query.js`). -/
def splitDropTerm : List Char → List (List Char)
  | [] => [[]]
  | c :: rest =>
    if isTerm c then
      [] :: splitDropTerm (rest.dropWhile isTerm)
    else
      match splitDropTerm rest with
      | [] => [[c]]
      | s :: ss => (c :: s) :: ss
  termination_by l => l.length
  decreasing_by
    · exact Nat.lt_succ_of_le (List.dropWhile_sublist isTerm).length_le
    · exact Nat.lt_succ_of_le (Nat.le_refl _)

/-- The shared greedy accumulation loop of `chunkContentIntelligently`
and of the inline chunker in `ai_query.js`'s `translateContent`:

```js
for (const sentence of sentences) {
  if ((currentChunk + sentence).length > maxChunkSize && currentChunk) {
    chunks.push(currentChunk.trim());
    currentChunk = sentence;
  } else {
    currentChunk += sentence;
  }
}
if (currentChunk.trim()) chunks.push(currentChunk.trim());
```
-/
def chunkAux (maxChunkSize : Nat) : List (List Char) → List Char → List (List Char)
  | [], buf => if (trimChars buf).isEmpty then [] else [trimChars buf]
  | s :: rest, buf =>
    if (buf ++ s).length > maxChunkSize ∧ buf ≠ [] then
      trimChars buf :: chunkAux maxChunkSize rest s
    else
      chunkAux maxChunkSize rest (buf ++ s)

/-- Models `chunkContentIntelligently(content, maxChunkSize = 1000)`. -/
def chunkContentIntelligently (content : List Char) (maxChunkSize : Nat := 1000) :
    List (List Char) :=
  chunkAux maxChunkSize (splitAfterTerm content) []

/-- The predicate kept by `filter` in the lossless-chunking statements:
non-whitespace characters. -/
def notWs (c : Char) : Bool := !isWs c

/-- A `TranslationItem`: one record of the source JSON. -/
structure Item where
  title : List Char
  content : List Char
deriving DecidableEq

/-! ## Concurrency limiter (`concurrency.js`, class `Semaphore`)

The JavaScript runtime is single-threaded: all mutation of `running`
and `queue` happens synchronously at `acquire`/`release` points, so
the class is a sequential state machine.  `running` is a JS number
that `release` decrements unconditionally, so it is modelled as `Int`.
Waiters are identified by the order-preserving ids they were enqueued
with. -/

structure Semaphore where
  max : Nat
  running : Int
  queue : List Nat

/-- Models `new Semaphore(max)`. -/
def Semaphore.init (max : Nat) : Semaphore :=
  { max := max, running := 0, queue := [] }

/-- Models `acquire()` — the immediate path of `tryRun`: if capacity is
available the caller starts running (returns `true`), otherwise it is
suspended at the back of the FIFO queue (returns `false`). -/
def Semaphore.acquire (s : Semaphore) (w : Nat) : Semaphore × Bool :=
  if s.running < (s.max : Int) then
    ({ s with running := s.running + 1 }, true)
  else
    ({ s with queue := s.queue ++ [w] }, false)

/-- Models `release()` — decrement `running`, then `queue.shift()()` re-runs
the first waiter's `tryRun`: it either starts running (is woken,
returned as `some w`) or — in the re-entrant branch of `tryRun` — is
pushed back to the end of the queue. -/
def Semaphore.release (s : Semaphore) : Semaphore × Option Nat :=
  let r := s.running - 1
  match s.queue with
  | [] => ({ s with running := r }, none)
  | w :: rest =>
    if r < (s.max : Int) then
      ({ s with running := r + 1, queue := rest }, some w)
    else
      ({ s with running := r, queue := rest ++ [w] }, none)

/-- A history of semaphore operations. -/
inductive SemEvent where
  | acquire (w : Nat)
  | release

def Semaphore.step (s : Semaphore) : SemEvent → Semaphore
  | .acquire w => (s.acquire w).1
  | .release => (s.release).1

def Semaphore.exec (s : Semaphore) : List SemEvent → Semaphore
  | [] => s
  | e :: es => (s.step e).exec es

/-! ## Fallback chain controller (priority-list variant)

This models the `translateContent` that walks `MODEL_PRIORITY_LIST`
with a sticky `currentModelIndex`.  The Gemini call is an oracle
`World5 : List Char → String → GenResult` giving, for a content and a
model name, either a response with (truthy) text or the thrown error.
The module-level mutable `currentModelIndex` becomes an explicit state
value threaded through the run. -/

namespace P5

def MODEL_PRIORITY_LIST : List String :=
  ["gemini-2.5-flash", "gemini-2.5-pro", "gemini-2.5-flash-lite"]

def FALLBACK_MODEL : String := "original content"

/-- The error object thrown by the API client: `error.error.code`,
`error.error.message` (nested API error) and `error.message`. -/
structure ApiError where
  code : Option Nat
  innerMsg : String
  outerMsg : String
deriving DecidableEq

/-- Outcome of one `ai.models.generateContent` call: a response with
truthy `.text`, or a thrown error (an empty response is thrown as an
`Error` without a nested `error` payload and is covered by `fail`). -/
inductive GenResult where
  | ok (text : List Char)
  | fail (e : ApiError)
deriving DecidableEq

abbrev World5 := List Char → String → GenResult

/-- Models `translateWithModel(content, modelName)`: one call, normalised to a
success/failure record carrying the model used. -/
inductive MResult where
  | ok (text : List Char) (model : String)
  | fail (e : ApiError) (model : String)
deriving DecidableEq

def translateWithModel (o : World5) (content : List Char) (modelName : String) : MResult :=
  match o content modelName with
  | .ok t => .ok t modelName
  | .fail e => .fail e modelName

/-- Models `result.error?.error?.code === 429`. -/
def is429 (e : ApiError) : Bool := e.code == some 429

/-- Models `isProhibitedContentError(error)`. -/
def isProhibitedContentError (e : ApiError) : Bool :=
  lowerContains e.innerMsg "prohibited" || lowerContains e.innerMsg "safety"

/-- The final translation record (`error` carried only when present). -/
structure TRes where
  translated : Bool
  content : List Char
  model : String
  error : Option String
deriving DecidableEq

/-- The `for (let i = currentModelIndex + 1; i < MODEL_PRIORITY_LIST.length; i++)`
retry loop: try each lower-priority model; return on the first success
(together with the index that becomes the new sticky index), stop on
the first non-429 error, otherwise fall off the end with the last
result's error.  Also records the models invoked, in order. -/
def scanModels (o : World5) (content : List Char) (i : Nat) (last : ApiError) :
    (ApiError ⊕ (List Char × String × Nat)) × List String :=
  if _h : i < MODEL_PRIORITY_LIST.length then
    match translateWithModel o content (MODEL_PRIORITY_LIST.getD i "") with
    | .ok t _ => (.inr (t, MODEL_PRIORITY_LIST.getD i "", i), [ MODEL_PRIORITY_LIST.getD i ""])
    | .fail e _ =>
      if is429 e then
        match scanModels o content (i + 1) e with
        | (out, cs) => (out, MODEL_PRIORITY_LIST.getD i "" :: cs)
      else (.inl e, [ MODEL_PRIORITY_LIST.getD i ""])
  else (.inl last, [])
  termination_by MODEL_PRIORITY_LIST.length - i

/-- Models `translateContent(content)` of the priority-list variant, with the
sticky `currentModelIndex` threaded explicitly: returns the result, the
new index, and the ordered list of models invoked. -/
def translateContent (o : World5) (content : List Char) (idx : Nat) :
    TRes × Nat × List String :=
  match translateWithModel o content (MODEL_PRIORITY_LIST.getD idx "") with
  | .ok t m => (⟨true, t, m, none⟩, idx, [ MODEL_PRIORITY_LIST.getD idx ""])
  | .fail e _ =>
    if is429 e then
      match scanModels o content (idx + 1) e with
      | (.inr (t, m, i), cs) =>
        (⟨true, t, m, none⟩, i, MODEL_PRIORITY_LIST.getD idx "" :: cs)
      | (.inl eLast, cs) =>
        if isProhibitedContentError eLast then
          (⟨false, content, FALLBACK_MODEL, some "prohibited content"⟩, idx,
            MODEL_PRIORITY_LIST.getD idx "" :: cs)
        else
          (⟨false, content, FALLBACK_MODEL, some eLast.outerMsg⟩, idx,
            MODEL_PRIORITY_LIST.getD idx "" :: cs)
    else
      if isProhibitedContentError e then
        (⟨false, content, FALLBACK_MODEL, some "prohibited content"⟩, idx,
          [ MODEL_PRIORITY_LIST.getD idx ""])
      else
        (⟨false, content, FALLBACK_MODEL, some e.outerMsg⟩, idx,
          [ MODEL_PRIORITY_LIST.getD idx ""])

/-- One item's record as pushed by the per-item loop of `main`. -/
structure OutRec where
  title : List Char
  content : List Char
  translated : Bool
  model : String
  error : Option String
deriving DecidableEq

/-- The per-item processing loop of `main` restricted to its
translation state: each item's content goes through `translateContent`,
and the sticky index produced by one call feeds the next.  A run always
starts from `currentModelIndex = 0` (module initialisation — one
orchestration run per process).  Each output record is paired with the
models invoked for it, for stating call-order properties. -/
def runItems (o : World5) : List Item → Nat → List (OutRec × List String) × Nat
  | [], idx => ([], idx)
  | item :: rest, idx =>
    let (r, idx', calls) := translateContent o item.content idx
    let (out, idxF) := runItems o rest idx'
    ((⟨item.title, r.content, r.translated, r.model, r.error⟩, calls) :: out, idxF)

/-- A world in which the first-priority model rejects with a 429 quota
error whose message also matches the content-policy keywords, and every
other model succeeds. -/
def safetyQuotaWorld : World5 := fun _ m =>
  if m = "gemini-2.5-flash" then .fail ⟨some 429, "safety", "safety"⟩ else .ok "T".toList

/-- A world in which every model rejects with a (non-429) prohibited
content error. -/
def prohibitedWorld : World5 := fun _ _ =>
  .fail ⟨none, "PROHIBITED_CONTENT blocked", "request blocked"⟩

/-- A world in which the first-priority model rejects with a plain 429
quota error and every other model succeeds. -/
def quotaThenOkWorld : World5 := fun _ m =>
  if m = "gemini-2.5-flash" then .fail ⟨some 429, "quota exceeded", "quota exceeded"⟩
  else .ok "T".toList

end P5

/-! ## Primary translator with Google-translate fallback (`ai_query.js`)

`translateContent` tries the requested Gemini model, optionally
switches once to `gemini-2.5-flash` on a quota error, retries the same
model once on an internal/5xx error, and otherwise falls back to the
Google-translate HTTP endpoint on sentence chunks with three bounded
retry attempts.  The Gemini call is an oracle keyed by model name and
a per-model call counter; the endpoint is an oracle keyed by attempt
number and chunk. -/

namespace AiQ

def MODEL_NAME : String := "gemini-2.5-flash-lite"

/-- The thrown error object: `err.status` and `err.message`. -/
structure ApiErr where
  status : Option Nat
  msg : String
deriving DecidableEq

inductive GenOut where
  | ok (text : List Char)
  | fail (e : ApiErr)
deriving DecidableEq

/-- Oracle for `ai.models.generateContent`: model name and per-model
call counter (0 = first call, 1 = the single internal retry) to
outcome.  A response without truthy `.text` is the thrown
`'Empty response'` error, covered by `fail`. -/
abbrev GenWorld := String → Nat → GenOut

/-- Oracle for the Google-translate HTTP endpoint: retry attempt
number and chunk to translated chunk, or `none` for a thrown error. -/
abbrev GooWorld := Nat → List Char → Option (List Char)

/-- Models `err?.status === 429 || err?.message?.toLowerCase().includes('quota')`. -/
def quotaErr (e : ApiErr) : Bool :=
  e.status == some 429 || lowerContains e.msg "quota"

/-- Models `err?.message?.toLowerCase().includes('internal') || err?.status >= 500`
(an absent `status` compares as false). -/
def internalErr (e : ApiErr) : Bool :=
  lowerContains e.msg "internal" ||
    (match e.status with
     | some s => decide (500 ≤ s)
     | none => false)

/-- The inline chunker of the Google fallback: `CHUNK_SIZE = 1000`,
terminator-dropping split, then the shared greedy loop. -/
def googleChunks (content : List Char) : List (List Char) :=
  chunkAux 1000 (splitDropTerm content) []

/-- One fallback attempt: translate every chunk in order via the
endpoint, concatenating the results; a thrown error on any chunk
aborts the whole attempt. -/
def googleAttempt (goo : GooWorld) (a : Nat) : List (List Char) → Option (List Char)
  | [] => some []
  | c :: cs =>
    match goo a c with
    | none => none
    | some t =>
      match googleAttempt goo a cs with
      | none => none
      | some rest => some (t ++ rest)

/-- The bounded retry loop (`MAX_RETRIES = 3`, attempts numbered 0-2):
the first successful attempt wins; when the attempts are exhausted the
fallback has failed. -/
def googleRetries (goo : GooWorld) (chunks : List (List Char)) :
    List Nat → Option (List Char)
  | [] => none
  | a :: as =>
    match googleAttempt goo a chunks with
    | some t => some t
    | none => googleRetries goo chunks as

structure TransResult where
  translated : Bool
  content : List Char
  model : String
deriving DecidableEq

/-- Models `translateContent(content, model = MODEL_NAME)`.  The
quota-triggered self-call recurses at most once because the new model
`"gemini-2.5-flash"` no longer satisfies `model === MODEL_NAME`. -/
def translateContent (gen : GenWorld) (goo : GooWorld)
    (content : List Char) (model : String) : TransResult :=
  match gen model 0 with
  | .ok t => ⟨true, t, model⟩
  | .fail e =>
    if _h : quotaErr e = true ∧ model = MODEL_NAME ∧ MODEL_NAME ≠ "gemini-2.5-flash" then
      translateContent gen goo content "gemini-2.5-flash"
    else
      match (if internalErr e then
              match gen model 1 with
              | .ok t => some (⟨true, t, model⟩ : TransResult)
              | .fail _ => none
             else none) with
      | some r => r
      | none =>
        match googleRetries goo (googleChunks content) [0, 1, 2] with
        | some t => ⟨true, t, "google translate"⟩
        | none => ⟨false, content, "google translate"⟩
  termination_by (if model = MODEL_NAME then 1 else 0)
  decreasing_by
    rcases _h with ⟨-, h2, h3⟩
    rw [h2, if_neg (fun hh => h3 hh.symm), if_pos rfl]
    exact Nat.zero_lt_one

structure OutItem where
  title : List Char
  content : List Char
  model : String
deriving DecidableEq

structure ParOut where
  translatedItems : List OutItem
  successCount : Nat
  failCount : Nat
deriving DecidableEq

/-- Models `translateContentParallel(items)`.  The staggered `setTimeout`
starts only schedule the work, and `Promise.all` resolves with the
values in argument order regardless of settlement order, so the result
collection is positional: one record per item, in item order.  The
internal `ok` flag is stripped from the returned items and summarised
in the success/fail counters. -/
def translateContentParallel (gen : GenWorld) (goo : GooWorld) (items : List Item) :
    ParOut :=
  let results : List (OutItem × Bool) := items.map (fun item =>
    let res := translateContent gen goo item.content MODEL_NAME
    (⟨item.title, res.content, res.model⟩, res.translated))
  let successCount := (results.filter (fun r => r.2)).length
  { translatedItems := results.map Prod.fst
    successCount := successCount
    failCount := results.length - successCount }

/-- A world in which every Gemini call throws and every endpoint call
throws. -/
def allFailGenWorld : GenWorld := fun _ _ => .fail ⟨none, "boom"⟩

def allFailGooWorld : GooWorld := fun _ _ => none

end AiQ

/-! ## Batch loop of `translate.js` (`processJson`)

The adaptive batch loop: submit `chapters.slice(i, i + currentBatchSize)`,
append whatever array the model returned, advance by
`currentBatchSize` and reset it; on a thrown error halve the batch
size (floor 1) and retry the same range, rethrowing (fatal) once the
size is already 1. -/

namespace TJs

/-- Oracle for `translateChapters`: the parsed array the model returns
for a submitted batch, or `none` when the call or the JSON parsing
throws. -/
abbrev BatchWorld := List Item → Option (List Item)

def processJsonGo (tr : BatchWorld) (cps : Nat) (chapters : List Item)
    (i : Nat) (cbs : Nat) (acc : List Item) : Option (List Item) :=
  if _hi : i < chapters.length then
    if _hz : cbs = 0 then
      -- a zero batch size would loop forever in the JS; unreachable, as the
      -- CLI default `parseInt(argv) || 5` makes `chaptersPerRequest ≥ 1`
      none
    else
      match tr ((chapters.drop i).take cbs) with
      | some translated =>
        processJsonGo tr cps chapters (i + cbs) cps (acc ++ translated)
      | none =>
        if 1 < cbs then
          processJsonGo tr cps chapters i (max 1 (cbs / 2)) acc
        else none
  else some acc
  termination_by (chapters.length - i, cbs)
  decreasing_by
    · exact Prod.Lex.left _ _ (by omega)
    · exact Prod.Lex.right _ (by omega)

/-- Models `processJson` restricted to its translation loop: batches start at
index 0 with the configured `chaptersPerRequest`; `some` is a
completed run (the saved array), `none` the fatal abort. -/
def processJson (tr : BatchWorld) (cps : Nat) (chapters : List Item) :
    Option (List Item) :=
  processJsonGo tr cps chapters 0 cps []

/-- A model that answers every batch with a syntactically valid but
empty JSON array. -/
def emptyBatchWorld : BatchWorld := fun _ => some []

end TJs

/-! ## Theorems -/

/-- Splitting never yields an empty list of fields. -/
theorem splitAfterTerm_ne_nil (l : List Char) : splitAfterTerm l ≠ [] := by
  induction l with
  | nil => simp [splitAfterTerm]
  | cons c rest ih =>
    rw [splitAfterTerm]
    split
    · split <;> simp
    · cases h : splitAfterTerm rest with
      | nil => simp
      | cons s ss => simp

/-- The `(?<=…)` split is a partition: the fields concatenate back to
the input. -/
theorem flatten_splitAfterTerm (l : List Char) : (splitAfterTerm l).flatten = l := by
  induction l with
  | nil => simp [splitAfterTerm]
  | cons c rest ih =>
    rw [splitAfterTerm]
    split
    · rcases hrest : rest with _ | ⟨d, t⟩
      · simp [hrest]
      · rw [if_neg (by simp [hrest])]
        simp [← hrest, ih]
    · cases h : splitAfterTerm rest with
      | nil => exact absurd h (splitAfterTerm_ne_nil rest)
      | cons s ss =>
        rw [h] at ih
        simp at ih ⊢
        exact ih

theorem filter_dropWhile_isWs (l : List Char) :
    (l.dropWhile isWs).filter notWs = l.filter notWs := by
  induction l with
  | nil => rfl
  | cons c t ih =>
    by_cases h : isWs c
    · rw [List.dropWhile_cons_of_pos h, ih, List.filter_cons_of_neg]
      simp [notWs, h]
    · rw [List.dropWhile_cons_of_neg (by simpa using h)]

/-- Trimming removes only whitespace characters. -/
theorem filter_trimChars (l : List Char) :
    (trimChars l).filter notWs = l.filter notWs := by
  unfold trimChars
  rw [List.filter_reverse, filter_dropWhile_isWs, List.filter_reverse,
    List.reverse_reverse, filter_dropWhile_isWs]

/-- Trimming only deletes characters (in place): the result is a
sublist of the input. -/
theorem trimChars_sublist (l : List Char) : List.Sublist (trimChars l) l := by
  unfold trimChars
  have h1 : List.Sublist ((l.dropWhile isWs).reverse.dropWhile isWs).reverse
      ((l.dropWhile isWs).reverse.reverse) :=
    List.Sublist.reverse (List.dropWhile_sublist isWs)
  rw [List.reverse_reverse] at h1
  exact h1.trans (List.dropWhile_sublist isWs)

theorem trimChars_length_le (l : List Char) : (trimChars l).length ≤ l.length :=
  (trimChars_sublist l).length_le

/-- Invariant of the greedy loop: the flattened output only deletes
whitespace of the pending buffer and remaining sentences, in place. -/
theorem chunkAux_flatten_sublist (maxSize : Nat) (ss : List (List Char)) :
    ∀ buf, List.Sublist (chunkAux maxSize ss buf).flatten (buf ++ ss.flatten) := by
  induction ss with
  | nil =>
    intro buf
    rw [chunkAux]
    split
    · simp
    · simpa using (trimChars_sublist buf)
  | cons s rest ih =>
    intro buf
    rw [chunkAux]
    split
    · have h := List.Sublist.append (trimChars_sublist buf) (ih s)
      simpa [List.append_assoc] using h
    · simpa [List.append_assoc] using ih (buf ++ s)

/-- Invariant of the greedy loop: no non-whitespace character is
dropped. -/
theorem chunkAux_flatten_filter (maxSize : Nat) (ss : List (List Char)) :
    ∀ buf, ((chunkAux maxSize ss buf).flatten).filter notWs
      = (buf ++ ss.flatten).filter notWs := by
  induction ss with
  | nil =>
    intro buf
    rw [chunkAux]
    split
    · rename_i h
      have hb : buf.filter notWs = [] := by
        rw [← filter_trimChars, List.isEmpty_iff.mp h]
        rfl
      simp [hb]
    · simp [filter_trimChars]
  | cons s rest ih =>
    intro buf
    rw [chunkAux]
    split
    · simp [List.filter_append, filter_trimChars, ih s, List.append_assoc]
    · simp [ih (buf ++ s), List.append_assoc]

/-- C2 — `chunkContentIntelligently` is a lossless partition modulo the
uniformly applied sentence-boundary trimming: the concatenation of the
chunks is the input with only characters deleted (a sublist), and every
deleted character is whitespace (filtering out whitespace on both sides
gives exactly the same sequence). -/
theorem chunkContentIntelligently_lossless (content : List Char) (maxSize : Nat) :
    List.Sublist (chunkContentIntelligently content maxSize).flatten content ∧
    ((chunkContentIntelligently content maxSize).flatten).filter notWs
      = content.filter notWs := by
  constructor
  · have h := chunkAux_flatten_sublist maxSize (splitAfterTerm content) []
    simpa [chunkContentIntelligently, flatten_splitAfterTerm] using h
  · have h := chunkAux_flatten_filter maxSize (splitAfterTerm content) []
    simpa [chunkContentIntelligently, flatten_splitAfterTerm] using h

/-- Invariant of the greedy loop for the size bound: every emitted chunk
is within the size limit unless it is the trim of a single oversized
sentence. -/
theorem chunkAux_size (maxSize : Nat) (S : List (List Char)) :
    ∀ ss buf, (∀ s ∈ ss, s ∈ S) →
    (buf.length ≤ maxSize ∨ (buf ∈ S ∧ maxSize < buf.length)) →
    ∀ c ∈ chunkAux maxSize ss buf,
      c.length ≤ maxSize ∨ ∃ s ∈ S, maxSize < s.length ∧ c = trimChars s := by
  intro ss
  induction ss with
  | nil =>
    intro buf _ hbuf c hc
    rw [chunkAux] at hc
    split at hc
    · simp at hc
    · simp at hc
      subst hc
      rcases hbuf with h | ⟨hS, hlen⟩
      · exact Or.inl (le_trans (trimChars_length_le buf) h)
      · exact Or.inr ⟨buf, hS, hlen, rfl⟩
  | cons s rest ih =>
    intro buf hss hbuf c hc
    have hsS : s ∈ S := hss s (by simp)
    have hrest : ∀ t ∈ rest, t ∈ S := fun t ht => hss t (by simp [ht])
    have hsInv : s.length ≤ maxSize ∨ (s ∈ S ∧ maxSize < s.length) := by
      rcases le_or_lt s.length maxSize with h | h
      · exact Or.inl h
      · exact Or.inr ⟨hsS, h⟩
    rw [chunkAux] at hc
    split at hc
    · rcases List.mem_cons.mp hc with hc1 | hc2
      · subst hc1
        rcases hbuf with h | ⟨hS, hlen⟩
        · exact Or.inl (le_trans (trimChars_length_le buf) h)
        · exact Or.inr ⟨buf, hS, hlen, rfl⟩
      · exact ih s hrest hsInv c hc2
    · rename_i hcond
      by_cases hb : buf = []
      · subst hb
        simp only [List.nil_append] at hc
        exact ih s hrest hsInv c hc
      · have hlen : (buf ++ s).length ≤ maxSize := by
          rcases not_and_or.mp hcond with h | h
          · omega
          · exact absurd (not_not.mp h) hb
        exact ih (buf ++ s) hrest (Or.inl hlen) c hc

/-- C3 — no chunk exceeds `maxSize`, except a chunk that is (the trim
of) a single sentence which alone exceeds `maxSize` and is emitted
whole as its own chunk. -/
theorem chunkContentIntelligently_size (content : List Char) (maxSize : Nat) :
    ∀ c ∈ chunkContentIntelligently content maxSize,
      c.length ≤ maxSize ∨
        ∃ s ∈ splitAfterTerm content, maxSize < s.length ∧ c = trimChars s := by
  intro c hc
  exact chunkAux_size maxSize (splitAfterTerm content) (splitAfterTerm content) []
    (fun _ h => h) (Or.inl (by simp)) c hc

/-- Witness for C3 at a concrete input: the oversized single sentence
`"aaaaaaa."` (8 characters, `maxSize = 5`) is emitted whole. -/
theorem chunkContentIntelligently_size_witness :
    "aaaaaaa.".toList ∈ chunkContentIntelligently "aaaaaaa.".toList 5 ∧
    ("aaaaaaa.".toList.length ≤ 5 ∨
      ∃ s ∈ splitAfterTerm "aaaaaaa.".toList, 5 < s.length ∧
        "aaaaaaa.".toList = trimChars s) := by
  refine ⟨by decide, ?_⟩
  exact chunkContentIntelligently_size "aaaaaaa.".toList 5 "aaaaaaa.".toList (by decide)

/-- C4 — on the concrete input `"你好。世界！"` with `maxSize = 5` the
chunker yields exactly `["你好。", "世界！"]`: the CJK terminators act as
boundaries and stay with their preceding sentence. -/
theorem chunk_cjk_scenario :
    chunkContentIntelligently "你好。世界！".toList 5 = ["你好。".toList, "世界！".toList] := by
  decide

/-- A `TranslationItem`: one record of the source JSON. -/
theorem Semaphore.step_max (s : Semaphore) (e : SemEvent) : (s.step e).max = s.max := by
  cases e with
  | acquire w =>
    simp only [step, acquire]
    split <;> rfl
  | release =>
    simp only [step, release]
    rcases s.queue with _ | ⟨w, rest⟩
    · rfl
    · dsimp only
      split <;> rfl

theorem Semaphore.step_running_le (s : Semaphore) (e : SemEvent)
    (h : s.running ≤ (s.max : Int)) : (s.step e).running ≤ ((s.step e).max : Int) := by
  rw [s.step_max e]
  cases e with
  | acquire w =>
    simp only [step, acquire]
    split
    · rename_i hlt
      dsimp only
      omega
    · dsimp only
      exact h
  | release =>
    simp only [step, release]
    rcases s.queue with _ | ⟨w, rest⟩
    · dsimp only
      omega
    · dsimp only
      split
      · rename_i hlt
        dsimp only
        omega
      · dsimp only
        omega

theorem Semaphore.exec_running_le (evs : List SemEvent) :
    ∀ s : Semaphore, s.running ≤ (s.max : Int) →
      (s.exec evs).running ≤ ((s.exec evs).max : Int) := by
  induction evs with
  | nil => intro s h; exact h
  | cons e es ih =>
    intro s h
    exact ih (s.step e) (s.step_running_le e h)

theorem Semaphore.exec_max (evs : List SemEvent) :
    ∀ s : Semaphore, (s.exec evs).max = s.max := by
  induction evs with
  | nil => intro s; rfl
  | cons e es ih =>
    intro s
    exact (ih (s.step e)).trans (s.step_max e)

/-- C8 — the semaphore never admits more than `max` concurrent holders
along any history of operations; a caller acquiring with capacity
exhausted is suspended at the back of the queue and not granted; and a
release with a non-empty queue (in any state respecting the capacity
invariant) wakes exactly the first-enqueued waiter, removing it from
the queue and handing it the freed slot. -/
theorem semaphore_fifo_bounded :
    (∀ (m : Nat) (evs : List SemEvent),
      ((Semaphore.init m).exec evs).running ≤ (m : Int))
    ∧ (∀ (s : Semaphore) (w : Nat), ¬ s.running < (s.max : Int) →
        s.acquire w = ({ s with queue := s.queue ++ [w] }, false))
    ∧ (∀ (s : Semaphore) (w : Nat) (rest : List Nat),
        s.running ≤ (s.max : Int) → s.queue = w :: rest →
        s.release = ({ s with queue := rest }, some w)) := by
  refine ⟨?_, ?_, ?_⟩
  · intro m evs
    have h := Semaphore.exec_running_le evs (Semaphore.init m) (by simp [Semaphore.init])
    rwa [Semaphore.exec_max evs (Semaphore.init m)] at h
  · intro s w h
    simp only [Semaphore.acquire, if_neg h]
  · intro s w rest hinv hq
    have hlt : s.running - 1 < (s.max : Int) := by omega
    simp only [Semaphore.release, hq, if_pos hlt]
    have : s.running - 1 + 1 = s.running := by omega
    rw [this]

/-- Witness for C8 at concrete inputs: a capacity-1 semaphore with the
history acquire 0, acquire 1, release stays within its bound; a full
semaphore suspends an arriving caller; a release on a full capacity-1
semaphore with waiters 5 then 6 wakes exactly waiter 5. -/
theorem semaphore_fifo_bounded_witness :
    (((Semaphore.init 1).exec
        [SemEvent.acquire 0, SemEvent.acquire 1, SemEvent.release]).running ≤ (1 : Int))
    ∧ (Semaphore.mk 1 1 [] |>.acquire 7)
        = ({ max := 1, running := 1, queue := [7] }, false)
    ∧ (Semaphore.mk 1 1 [5, 6] |>.release)
        = ({ max := 1, running := 1, queue := [6] }, some 5) := by
  refine ⟨semaphore_fifo_bounded.1 1 _, ?_, ?_⟩
  · have h := semaphore_fifo_bounded.2.1 (Semaphore.mk 1 1 []) 7 (by decide)
    simpa using h
  · have h := semaphore_fifo_bounded.2.2 (Semaphore.mk 1 1 [5, 6]) 5 [6] (by decide) rfl
    simpa using h


/-! ### Fallback chain controller (priority-list variant) -/

namespace P5

theorem scanModels_ge (o : World5) (content : List Char) (i : Nat) (last : ApiError)
    (h : MODEL_PRIORITY_LIST.length ≤ i) :
    scanModels o content i last = (.inl last, []) := by
  rw [scanModels, dif_neg (by omega)]

/-- The retry loop only reports a success together with the index of
the model that produced it. -/
theorem scanModels_inr_getD (o : World5) (content : List Char) :
    ∀ d i last t m j cs, MODEL_PRIORITY_LIST.length - i ≤ d →
      scanModels o content i last = (.inr (t, m, j), cs) →
      m = MODEL_PRIORITY_LIST.getD j "" := by
  intro d
  induction d with
  | zero =>
    intro i last t m j cs hle h
    rw [scanModels_ge o content i last (by omega)] at h
    simp at h
  | succ d ih =>
    intro i last t m j cs hle h
    by_cases hlt : i < MODEL_PRIORITY_LIST.length
    · rw [scanModels, dif_pos hlt] at h
      cases htw : translateWithModel o content (MODEL_PRIORITY_LIST.getD i "") with
      | ok t' m' =>
        simp only [htw] at h
        injection h with h1 h2
        injection h1 with h3
        injection h3 with h4 h5
        injection h5 with h6 h7
        rw [← h6, ← h7]
      | fail e' m' =>
        simp only [htw] at h
        split at h
        · rcases hs : scanModels o content (i + 1) e' with ⟨out, cs0⟩
          rw [hs] at h
          dsimp only at h
          injection h with h1 h2
          exact ih (i + 1) e' t m j cs0 (by omega) (by rw [hs, h1])
        · simp at h
    · rw [scanModels_ge o content i last (by omega)] at h
      simp at h

/-- The retry loop always invokes the model at its starting index
first. -/
theorem scanModels_calls_head (o : World5) (content : List Char) (i : Nat)
    (last : ApiError) (hlt : i < MODEL_PRIORITY_LIST.length) :
    (scanModels o content i last).2.head? = some (MODEL_PRIORITY_LIST.getD i "") := by
  rw [scanModels, dif_pos hlt]
  cases htw : translateWithModel o content (MODEL_PRIORITY_LIST.getD i "") with
  | ok t m => simp [htw]
  | fail e m =>
    simp only [htw]
    split
    · rfl
    · rfl

/-- The models invoked by the retry loop are a prefix of the remaining
priority list: each lower-priority model is tried at most once, in
priority order. -/
theorem scanModels_calls_ordered (o : World5) (content : List Char) :
    ∀ d i last, MODEL_PRIORITY_LIST.length - i ≤ d →
      (scanModels o content i last).2 <+: MODEL_PRIORITY_LIST.drop i := by
  intro d
  induction d with
  | zero =>
    intro i last hle
    rw [scanModels_ge o content i last (by omega)]
    exact List.nil_prefix
  | succ d ih =>
    intro i last hle
    by_cases hlt : i < MODEL_PRIORITY_LIST.length
    · have hdrop : MODEL_PRIORITY_LIST.drop i
          = MODEL_PRIORITY_LIST.getD i "" :: MODEL_PRIORITY_LIST.drop (i + 1) := by
        rw [List.drop_eq_getElem_cons hlt, List.getD_eq_getElem _ _ hlt]
      rw [scanModels, dif_pos hlt, hdrop]
      cases htw : translateWithModel o content (MODEL_PRIORITY_LIST.getD i "") with
      | ok t m =>
        simp only [htw]
        exact ⟨MODEL_PRIORITY_LIST.drop (i + 1), rfl⟩
      | fail e m =>
        simp only [htw]
        split
        · dsimp only
          obtain ⟨tl, htl⟩ := ih (i + 1) e (by omega)
          exact ⟨tl, by rw [List.cons_append, htl]⟩
        · exact ⟨MODEL_PRIORITY_LIST.drop (i + 1), rfl⟩
    · rw [scanModels_ge o content i last (by omega)]
      exact List.nil_prefix

/-- On a 429 of the sticky model, the call list is the sticky model
followed by the models visited by the retry loop. -/
theorem translateContent_calls_quota (o : World5) (content : List Char) (idx : Nat)
    (e : ApiError) (h : o content (MODEL_PRIORITY_LIST.getD idx "") = .fail e)
    (h429 : is429 e = true) :
    (translateContent o content idx).2.2
      = MODEL_PRIORITY_LIST.getD idx "" :: (scanModels o content (idx + 1) e).2 := by
  unfold translateContent translateWithModel
  simp only [h, h429, if_true]
  rcases hs : scanModels o content (idx + 1) e with ⟨out, cs⟩
  cases out with
  | inl eLast =>
    dsimp only
    split <;> rfl
  | inr v =>
    obtain ⟨t, m, j⟩ := v
    rfl

/-- Every `translateContent` call invokes the sticky model first. -/
theorem translateContent_calls_head (o : World5) (content : List Char) (idx : Nat) :
    (translateContent o content idx).2.2.head? = some (MODEL_PRIORITY_LIST.getD idx "") := by
  unfold translateContent translateWithModel
  cases ho : o content (MODEL_PRIORITY_LIST.getD idx "") with
  | ok t => simp [ho]
  | fail e =>
    simp only [ho]
    split
    · rcases hs : scanModels o content (idx + 1) e with ⟨out, cs⟩
      cases out with
      | inl eLast =>
        dsimp only
        split <;> rfl
      | inr v =>
        obtain ⟨t, m, j⟩ := v
        rfl
    · split <;> rfl

/-- After any successful `translateContent` call, the returned sticky
index denotes exactly the model that produced the success. -/
theorem translateContent_sticky_model (o : World5) (content : List Char) (idx : Nat)
    (h : (translateContent o content idx).1.translated = true) :
    MODEL_PRIORITY_LIST.getD (translateContent o content idx).2.1 ""
      = (translateContent o content idx).1.model := by
  unfold translateContent translateWithModel at h ⊢
  cases ho : o content (MODEL_PRIORITY_LIST.getD idx "") with
  | ok t => simp [ho]
  | fail e =>
    simp only [ho] at h ⊢
    cases h429 : is429 e with
    | true =>
      simp only [h429, if_true] at h ⊢
      rcases hs : scanModels o content (idx + 1) e with ⟨out, cs⟩
      rw [hs] at h
      cases out with
      | inl eLast =>
        exfalso
        split at h
        · simp_all
        · split at h <;> simp at h
      | inr v =>
        obtain ⟨t, m, j⟩ := v
        dsimp only
        exact (scanModels_inr_getD o content MODEL_PRIORITY_LIST.length (idx + 1) e t m j cs
          (by omega) hs).symm
    | false =>
      simp only [h429, Bool.false_eq_true, if_false] at h ⊢
      split at h <;> simp_all

/-- C5 is falsified, as stated, by the code: an error that
`isProhibitedContentError` classifies as a content-policy rejection
but that also carries HTTP code 429 takes the quota path first, so the
controller *does* retry with the next backend and, when that backend
succeeds, returns `translated := true` with its text instead of
terminating immediately with the original text. -/
theorem contentPolicy_counterexample :
    isProhibitedContentError ⟨some 429, "safety", "safety"⟩ = true ∧
    (translateContent safetyQuotaWorld "x".toList 0).1.translated = true ∧
    (translateContent safetyQuotaWorld "x".toList 0).2.2
      = ["gemini-2.5-flash", "gemini-2.5-pro"] := by
  refine ⟨by decide, ?_, ?_⟩ <;>
    simp [translateContent, translateWithModel, safetyQuotaWorld, is429, scanModels,
      MODEL_PRIORITY_LIST]

/-- C5 (amended) — if the current backend's error is classified as a
content-policy rejection and is not a 429 quota error, the controller
invokes no other backend: it terminates immediately with
`translated := false`, the original content, the last-resort model
label, and the error tagged `"prohibited content"`. -/
theorem contentPolicy_no_crossRetry (o : World5) (content : List Char) (idx : Nat)
    (e : ApiError)
    (h : o content (MODEL_PRIORITY_LIST.getD idx "") = .fail e)
    (hp : isProhibitedContentError e = true)
    (h429 : is429 e = false) :
    translateContent o content idx
      = (⟨false, content, FALLBACK_MODEL, some "prohibited content"⟩, idx,
          [ MODEL_PRIORITY_LIST.getD idx ""]) := by
  unfold translateContent translateWithModel
  simp only [h, h429, hp, Bool.false_eq_true, if_false, if_true]

/-- Witness for the amended C5 at concrete inputs. -/
theorem contentPolicy_no_crossRetry_witness :
    translateContent prohibitedWorld "x".toList 0
      = (⟨false, "x".toList, FALLBACK_MODEL, some "prohibited content"⟩, 0,
          [ MODEL_PRIORITY_LIST.getD 0 ""]) :=
  contentPolicy_no_crossRetry prohibitedWorld "x".toList 0
    ⟨none, "PROHIBITED_CONTENT blocked", "request blocked"⟩ rfl (by decide) rfl

/-- C6 — when the sticky backend fails with a 429 quota error and a
lower-priority backend exists, the controller calls the failing backend
exactly once (it heads the call list and occurs nowhere else), then
calls the next backend in priority order; within the single
`translateContent` call no backend is invoked twice on the quota path
(the call list has no duplicates). -/
theorem quota_single_advance (o : World5) (content : List Char) (idx : Nat)
    (e : ApiError)
    (hidx : idx + 1 < MODEL_PRIORITY_LIST.length)
    (h : o content (MODEL_PRIORITY_LIST.getD idx "") = .fail e)
    (h429 : is429 e = true) :
    (translateContent o content idx).2.2.head? = some (MODEL_PRIORITY_LIST.getD idx "") ∧
    (translateContent o content idx).2.2[1]? = some (MODEL_PRIORITY_LIST.getD (idx + 1) "") ∧
    (translateContent o content idx).2.2.Nodup := by
  have hcalls := translateContent_calls_quota o content idx e h h429
  rw [hcalls]
  have hsub : List.Sublist (scanModels o content (idx + 1) e).2
      (MODEL_PRIORITY_LIST.drop (idx + 1)) :=
    (scanModels_calls_ordered o content MODEL_PRIORITY_LIST.length (idx + 1) e (by omega)).sublist
  have hlen : MODEL_PRIORITY_LIST.length = 3 := rfl
  have hidx2 : idx < 2 := by omega
  refine ⟨rfl, ?_, ?_⟩
  · rw [List.getElem?_cons_succ, ← List.head?_eq_getElem?]
    exact scanModels_calls_head o content (idx + 1) e hidx
  · refine List.nodup_cons.mpr ⟨?_, ?_⟩
    · intro hmem
      have hmem2 := hsub.subset hmem
      interval_cases idx
      · exact absurd hmem2 (by decide)
      · exact absurd hmem2 (by decide)
    · exact hsub.nodup ((MODEL_PRIORITY_LIST.drop_sublist (idx + 1)).nodup (by decide))

/-- Witness for C6 at concrete inputs. -/
theorem quota_single_advance_witness :
    (translateContent quotaThenOkWorld "x".toList 0).2.2.head?
        = some (MODEL_PRIORITY_LIST.getD 0 "") ∧
    (translateContent quotaThenOkWorld "x".toList 0).2.2[1]?
        = some (MODEL_PRIORITY_LIST.getD 1 "") ∧
    (translateContent quotaThenOkWorld "x".toList 0).2.2.Nodup :=
  quota_single_advance quotaThenOkWorld "x".toList 0
    ⟨some 429, "quota exceeded", "quota exceeded"⟩ (by decide) rfl rfl

/-- C9 — the sticky backend index is explicit per-run state (the
module-level `currentModelIndex` is re-initialised to 0 for each
process, and one orchestration run is one process; `runItems` threads
it through the calls of one run only, so runs cannot interfere).
Within a run: (1) after any successful call the returned sticky index
denotes exactly the model that succeeded; (2) every call invokes the
model at its sticky index first; hence (3) in the per-item loop, once a
call succeeds with some backend, the next item's call invokes that same
backend first. -/
theorem sticky_backend_scoped :
    (∀ (o : World5) (content : List Char) (idx : Nat),
        (translateContent o content idx).1.translated = true →
        MODEL_PRIORITY_LIST.getD (translateContent o content idx).2.1 ""
          = (translateContent o content idx).1.model)
    ∧ (∀ (o : World5) (content : List Char) (idx : Nat),
        (translateContent o content idx).2.2.head?
          = some (MODEL_PRIORITY_LIST.getD idx ""))
    ∧ (∀ (o : World5) (it1 it2 : Item) (rest : List Item) (idx : Nat)
        (rec1 rec2 : OutRec × List String),
        (runItems o (it1 :: it2 :: rest) idx).1[0]? = some rec1 →
        (runItems o (it1 :: it2 :: rest) idx).1[1]? = some rec2 →
        rec1.1.translated = true →
        rec2.2.head? = some rec1.1.model) := by
  refine ⟨translateContent_sticky_model, translateContent_calls_head, ?_⟩
  intro o it1 it2 rest idx rec1 rec2 h0 h1 htr
  rcases hA : translateContent o it1.content idx with ⟨r1, idx1, calls1⟩
  rcases hB : translateContent o it2.content idx1 with ⟨r2, idx2, calls2⟩
  have hrun : (runItems o (it1 :: it2 :: rest) idx).1
      = (⟨it1.title, r1.content, r1.translated, r1.model, r1.error⟩, calls1)
        :: (⟨it2.title, r2.content, r2.translated, r2.model, r2.error⟩, calls2)
        :: (runItems o rest idx2).1 := by
    simp [runItems, hA, hB]
  rw [hrun] at h0 h1
  simp only [List.getElem?_cons_zero, List.getElem?_cons_succ, Option.some.injEq] at h0 h1
  have hhead := translateContent_calls_head o it2.content idx1
  rw [hB] at hhead
  have hmodel := translateContent_sticky_model o it1.content idx (by rw [hA]; rw [← h0] at htr; exact htr)
  rw [hA] at hmodel
  rw [← h1, ← h0]
  dsimp only
  rw [hhead, hmodel]

/-- Witness for C9 at concrete inputs: with the quota world, the first
item succeeds on the second-priority model and the next item's call
invokes that model first. -/
theorem sticky_backend_scoped_witness :
    (MODEL_PRIORITY_LIST.getD
        (translateContent quotaThenOkWorld "x".toList 0).2.1 ""
      = (translateContent quotaThenOkWorld "x".toList 0).1.model)
    ∧ (translateContent quotaThenOkWorld "y".toList 0).2.2.head?
        = some (MODEL_PRIORITY_LIST.getD 0 "")
    ∧ ((⟨"乙".toList, "T".toList, true, "gemini-2.5-pro", none⟩, ["gemini-2.5-pro"])
          : OutRec × List String).2.head?
        = some (((⟨"甲".toList, "T".toList, true, "gemini-2.5-pro", none⟩,
            ["gemini-2.5-flash", "gemini-2.5-pro"]) : OutRec × List String)).1.model := by
  refine ⟨?_, sticky_backend_scoped.2.1 quotaThenOkWorld "y".toList 0, ?_⟩
  · refine sticky_backend_scoped.1 quotaThenOkWorld "x".toList 0 ?_
    simp [translateContent, translateWithModel, quotaThenOkWorld, is429, scanModels,
      MODEL_PRIORITY_LIST]
  · refine sticky_backend_scoped.2.2 quotaThenOkWorld ⟨"甲".toList, "x".toList⟩
      ⟨"乙".toList, "x".toList⟩ [] 0 _ _ ?_ ?_ rfl
    · simp [runItems, translateContent, translateWithModel, quotaThenOkWorld, is429,
        scanModels, MODEL_PRIORITY_LIST]
    · simp [runItems, translateContent, translateWithModel, quotaThenOkWorld, is429,
        scanModels, MODEL_PRIORITY_LIST]


end P5

/-! ### Primary translator with Google fallback (`ai_query.js`) -/

namespace AiQ

/-- If every attempt of the bounded retry loop fails, the loop fails. -/
theorem googleRetries_none (goo : GooWorld) (chunks : List (List Char)) :
    ∀ as : List Nat, (∀ a ∈ as, googleAttempt goo a chunks = none) →
      googleRetries goo chunks as = none := by
  intro as
  induction as with
  | nil => intro _; rfl
  | cons a rest ih =>
    intro h
    rw [googleRetries, h a (by simp)]
    exact ih (fun a' ha' => h a' (by simp [ha']))

/-- A failing call that does not take the quota switch, and whose
internal retry (if taken) also fails, falls through to the Google
fallback; when that is exhausted the original content is returned
untranslated under the last-resort label. -/
theorem translateContent_fail_fallback (gen : GenWorld) (goo : GooWorld)
    (content : List Char) (model : String) (e : ApiErr)
    (he : gen model 0 = .fail e)
    (hguard : ¬ (quotaErr e = true ∧ model = MODEL_NAME ∧ MODEL_NAME ≠ "gemini-2.5-flash"))
    (hretry : ∃ e2, gen model 1 = .fail e2)
    (hg : googleRetries goo (googleChunks content) [0, 1, 2] = none) :
    translateContent gen goo content model = ⟨false, content, "google translate"⟩ := by
  obtain ⟨e2, he2⟩ := hretry
  rw [translateContent]
  simp only [he, dif_neg hguard]
  by_cases hint : internalErr e
  · simp only [hint, if_true, he2, hg]
  · simp only [hint, Bool.false_eq_true, if_false, hg]

/-- C7 — if every Gemini call fails (whatever the error class) and
every one of the three Google-fallback attempts fails on the chunked
content, the result is `translated := false`, the model is the
last-resort identifier `"google translate"`, and the content is the
original input unchanged. -/
theorem all_fail_returns_original (gen : GenWorld) (goo : GooWorld)
    (content : List Char)
    (h1 : ∀ m k, ∃ e, gen m k = .fail e)
    (h2 : ∀ a ∈ ([0, 1, 2] : List Nat),
        googleAttempt goo a (googleChunks content) = none) :
    translateContent gen goo content MODEL_NAME
      = ⟨false, content, "google translate"⟩ := by
  obtain ⟨e, he⟩ := h1 MODEL_NAME 0
  have hg := googleRetries_none goo (googleChunks content) [0, 1, 2] h2
  rw [translateContent]
  simp only [he]
  split
  · obtain ⟨e', he'⟩ := h1 "gemini-2.5-flash" 0
    exact translateContent_fail_fallback gen goo content "gemini-2.5-flash" e' he'
      (fun hc => absurd hc.2.1 (by decide)) (h1 "gemini-2.5-flash" 1) hg
  · by_cases hint : internalErr e
    · obtain ⟨e2, he2⟩ := h1 MODEL_NAME 1
      simp only [hint, if_true, he2, hg]
    · simp only [hint, Bool.false_eq_true, if_false, hg]

/-- Witness for C7 at concrete inputs. -/
theorem all_fail_returns_original_witness :
    translateContent allFailGenWorld allFailGooWorld "你好。".toList MODEL_NAME
      = ⟨false, "你好。".toList, "google translate"⟩ :=
  all_fail_returns_original allFailGenWorld allFailGooWorld "你好。".toList
    (fun _ _ => ⟨⟨none, "boom"⟩, rfl⟩) (fun a _ => by
      simp [googleChunks, splitDropTerm, chunkAux, googleAttempt, allFailGooWorld,
        isTerm, trimChars, isWs])

/-- C10 — `translateContentParallel` returns `successCount + failCount`
equal to the number of items, `successCount` counts exactly the items
whose translation reported `translated`, and the returned items are,
in order, the input items' titles with the translated content and
model, the internal `ok` flag stripped. -/
theorem parallel_counts_and_fields (gen : GenWorld) (goo : GooWorld) (items : List Item) :
    (translateContentParallel gen goo items).successCount
        + (translateContentParallel gen goo items).failCount = items.length
    ∧ (translateContentParallel gen goo items).successCount
        = (items.filter
            (fun it => (translateContent gen goo it.content MODEL_NAME).translated)).length
    ∧ (translateContentParallel gen goo items).translatedItems
        = items.map (fun it =>
            ⟨it.title, (translateContent gen goo it.content MODEL_NAME).content,
              (translateContent gen goo it.content MODEL_NAME).model⟩) := by
  have hcount :
      (translateContentParallel gen goo items).successCount
        = (items.filter
            (fun it => (translateContent gen goo it.content MODEL_NAME).translated)).length := by
    simp only [translateContentParallel]
    rw [List.filter_map, List.length_map]
    rfl
  refine ⟨?_, hcount, ?_⟩
  · have hle : (items.filter
        (fun it => (translateContent gen goo it.content MODEL_NAME).translated)).length
          ≤ items.length := List.length_filter_le _ _
    simp only [translateContentParallel] at hcount ⊢
    simp only [List.length_map]
    omega
  · simp only [translateContentParallel, List.map_map]
    rfl

end AiQ

/-! ### Batch loop of `translate.js` -/

namespace TJs

/-- C1 — the claim fails on the cited `processJson`: when the model
answers a batch with a well-formed array of the wrong length, the loop
appends it unchecked, so a *completed* run can return fewer results
than inputs.  Here one chapter is submitted, the model answers `[]`,
and the run completes with zero results for one input (the sibling
`translateBatch`-based `main` of `translate.js` and the spec treat a
count mismatch as a batch failure, so this is a slip in
`processJson`). -/
theorem processJson_count_mismatch :
    processJson emptyBatchWorld 1 [⟨"甲".toList, "你好".toList⟩] = some [] ∧
    ([] : List Item).length ≠ [(⟨"甲".toList, "你好".toList⟩ : Item)].length := by
  refine ⟨?_, by decide⟩
  simp [processJson, processJsonGo, emptyBatchWorld]

end TJs

end Trnsl
